import Mathlib

/-
Verification development for the pixel-art generator's core engine
(src/lib/pixelation.ts): the block averager `pixelateImageData`, the color
quantizers `reduceColorsSimple`, `reduceColorsKMeans`,
`reduceColorsMedianCut`, `reduceColorsOctree`, and the dispatcher
`reduceColors`.

Embedding conventions:
* An RGBA buffer (JS `Uint8ClampedArray`) is a `List Nat` of bytes.  All
  stated theorems carry the buffer invariant `4 ∣ data.length` where the
  source relies on it (the JS loops step the flat array by 4).
* The step-by-4 loops of the source, which read bytes i, i+1, i+2, i+3 and
  write back i, i+1, i+2 (RGB) while leaving i+3 (alpha) in the copied
  output, are embedded through the 4-chunk view `bytesToPixels` /
  `pixelsToBytes` and the combinator `mapColors`.
* `Math.round(sum / count)` on nonnegative operands is round-half-up; it is
  embedded exactly as `jsRound sum count = (2*sum + count) / (2*count)`
  over Nat.  (The double division `sum/count` is correctly rounded and the
  integer/half-integer boundary cases are exactly representable at these
  magnitudes, so the float `Math.round` agrees with this integer formula.)
* `Math.floor(256 / Math.sqrt(colorCount))` is embedded as
  `Nat.sqrt (65536 / colorCount)`: over the reals
  ⌊256/√K⌋ = ⌊√(65536/K)⌋ = ⌊√⌊65536/K⌋⌋, and the double computation is
  exact at every integer boundary (K a power of four), so the two agree for
  every Nat `K`; the JS edge case K = 0 (step = Infinity, output channel
  NaN, clamped to 0) coincides with the Nat value 0 produced here.
* `Math.floor(Math.log2(colorCount) / 3)` is embedded as
  `Nat.log2 colorCount / 3` (again ⌊⌊log₂K⌋/3⌋ = ⌊log₂K/3⌋, exact in
  doubles at the power-of-two boundaries); the JS edge case K = 0
  (log2 = -Infinity, `1 << -Infinity` = 1 << 0, step = 256) coincides with
  the Nat value bits = 0, step = 256 produced here.
* The `Math.sqrt` Euclidean distances are only ever *compared* (strict <).
  The squared distances are integers ≤ 3·255², exactly representable, and
  the correctly rounded double `sqrt` is strictly monotone on them, so the
  comparisons are embedded on the squared integer distances.
* JS `Array.prototype.sort` with a numeric comparator is a stable sort; it
  is embedded as a structural stable insertion sort (any two stable sorts
  under the same total preorder agree pointwise).
* `pixelateImageData` never terminates when `pixelSize = 0` (the `y +=
  pixelSize` loop makes no progress); its embedding below is the
  per-pixel reading of the block loop and is faithful for `pixelSize ≥ 1`.
-/

namespace PixelGen

/-- An (R,G,B) triple, 0–255 each in well-formed buffers. -/
abbrev Color : Type := Nat × Nat × Nat

/-- An (R,G,B,A) quadruple: one pixel of a buffer. -/
abbrev Pix : Type := Nat × Nat × Nat × Nat

/-- View a flat byte buffer as its list of 4-byte RGBA pixels.  Mirrors the
source loops `for (let i = 0; i < data.length; i += 4)`; a trailing partial
chunk (excluded by the buffer invariant) is dropped. -/
def bytesToPixels : List Nat → List Pix
  | r :: g :: b :: a :: rest => (r, g, b, a) :: bytesToPixels rest
  | _ => []

/-- Flatten a pixel list back to the flat byte buffer. -/
def pixelsToBytes (ps : List Pix) : List Nat :=
  ps.flatMap fun p => [p.1, p.2.1, p.2.2.1, p.2.2.2]

/-- The (R,G,B) part of a pixel. -/
def rgbOf (p : Pix) : Color := (p.1, p.2.1, p.2.2.1)

/-- The alpha byte of a pixel. -/
def alphaOf (p : Pix) : Nat := p.2.2.2

/-- The source pattern shared by all four quantizers: walk the buffer in
4-byte steps, replace the RGB bytes of each pixel through `g`, and keep the
alpha byte as copied into the output array. -/
def mapColors (g : Color → Color) (data : List Nat) : List Nat :=
  pixelsToBytes ((bytesToPixels data).map fun p =>
    ((g (rgbOf p)).1, (g (rgbOf p)).2.1, (g (rgbOf p)).2.2, alphaOf p))

/-- The alpha channel of a buffer: every fourth byte. -/
def alphaChannel (data : List Nat) : List Nat :=
  (bytesToPixels data).map alphaOf

/-- The RGB triples of a buffer, pixel by pixel. -/
def rgbList (data : List Nat) : List Color :=
  (bytesToPixels data).map rgbOf

/-- `Math.round(sum / count)` on nonnegative integers: round half up. -/
def jsRound (sum count : Nat) : Nat := (2 * sum + count) / (2 * count)

/-- First-encounter deduplication, mirroring the JS `Map` the quantizers
build over the buffer: keys appear in first-insertion order. -/
def firstDedup {α : Type} [DecidableEq α] (l : List α) : List α :=
  l.foldl (fun acc c => if c ∈ acc then acc else acc ++ [c]) []

/-- Number of distinct (R,G,B) triples occurring in a buffer. -/
def distinctRGBCount (data : List Nat) : Nat :=
  (firstDedup (rgbList data)).length

/-! ### Basic lemmas about the pixel view -/

theorem bytesToPixels_pixelsToBytes (ps : List Pix) :
    bytesToPixels (pixelsToBytes ps) = ps := by
  induction ps with
  | nil => rfl
  | cons p ps ih =>
      obtain ⟨r, g, b, a⟩ := p
      simpa [pixelsToBytes, bytesToPixels, List.flatMap_cons] using ih

theorem pixelsToBytes_bytesToPixels (data : List Nat)
    (h : 4 ∣ data.length) : pixelsToBytes (bytesToPixels data) = data := by
  obtain ⟨k, hk⟩ := h
  induction k generalizing data with
  | zero =>
      have : data = [] := List.length_eq_zero.mp (by omega)
      subst this; rfl
  | succ k ih =>
      match data, hk with
      | r :: g :: b :: a :: rest, hk =>
          have hrest : rest.length = 4 * k := by
            simp only [List.length_cons] at hk; omega
          simp only [bytesToPixels, pixelsToBytes, List.flatMap_cons]
          have := ih rest hrest
          simp only [pixelsToBytes] at this
          simp [this]

theorem length_pixelsToBytes (ps : List Pix) :
    (pixelsToBytes ps).length = 4 * ps.length := by
  induction ps with
  | nil => rfl
  | cons p ps ih =>
      simp only [pixelsToBytes, List.flatMap_cons] at *
      simp only [List.length_append, List.length_cons, List.length_nil, ih]
      omega

theorem length_bytesToPixels (data : List Nat) :
    (bytesToPixels data).length = data.length / 4 := by
  have H : ∀ n (l : List Nat), l.length ≤ n →
      (bytesToPixels l).length = l.length / 4 := by
    intro n
    induction n with
    | zero =>
        intro l hl
        have : l = [] := List.length_eq_zero.mp (by omega)
        subst this; simp [bytesToPixels]
    | succ n ih =>
        intro l hl
        match l with
        | [] => simp [bytesToPixels]
        | [r] => simp [bytesToPixels]
        | [r, g] => simp [bytesToPixels]
        | [r, g, b] => simp [bytesToPixels]
        | r :: g :: b :: a :: rest =>
            have h1 : rest.length ≤ n := by
              simp only [List.length_cons] at hl; omega
            simp only [bytesToPixels, List.length_cons, ih rest h1]
            omega
  exact H data.length data le_rfl

theorem rgbList_mapColors (g : Color → Color) (data : List Nat) :
    rgbList (mapColors g data) = (rgbList data).map g := by
  simp only [rgbList, mapColors, bytesToPixels_pixelsToBytes, List.map_map]
  rfl

theorem alphaChannel_mapColors (g : Color → Color) (data : List Nat) :
    alphaChannel (mapColors g data) = alphaChannel data := by
  simp only [alphaChannel, mapColors, bytesToPixels_pixelsToBytes,
    List.map_map]
  rfl

theorem length_mapColors (g : Color → Color) (data : List Nat)
    (h : 4 ∣ data.length) : (mapColors g data).length = data.length := by
  obtain ⟨k, hk⟩ := h
  simp [mapColors, length_pixelsToBytes, length_bytesToPixels, hk,
    Nat.mul_div_cancel_left]

/-! ### Lemmas about first-encounter deduplication -/

theorem mem_of_mem_firstDedup {α : Type} [DecidableEq α] {l : List α}
    {x : α} (h : x ∈ firstDedup l) : x ∈ l := by
  have H : ∀ (l acc : List α),
      x ∈ l.foldl (fun acc c => if c ∈ acc then acc else acc ++ [c]) acc →
      x ∈ acc ∨ x ∈ l := by
    intro l
    induction l with
    | nil => intro acc h; exact Or.inl h
    | cons a l ih =>
        intro acc h
        rcases ih _ h with h1 | h1
        · by_cases ha : a ∈ acc
          · simp only [if_pos ha] at h1; exact Or.inl h1
          · simp only [if_neg ha, List.mem_append, List.mem_singleton] at h1
            rcases h1 with h1 | h1
            · exact Or.inl h1
            · exact Or.inr (by simp [h1])
        · exact Or.inr (List.mem_cons_of_mem _ h1)
  rcases H l [] h with h1 | h1
  · simp at h1
  · exact h1

theorem nodup_firstDedup {α : Type} [DecidableEq α] (l : List α) :
    (firstDedup l).Nodup := by
  have H : ∀ (l acc : List α), acc.Nodup →
      (l.foldl (fun acc c => if c ∈ acc then acc else acc ++ [c])
        acc).Nodup := by
    intro l
    induction l with
    | nil => intro acc h; exact h
    | cons a l ih =>
        intro acc h
        apply ih
        by_cases ha : a ∈ acc
        · simpa [ha]
        · simp [ha, List.nodup_append, h]
  exact H l [] List.nodup_nil

theorem length_le_of_nodup_subset {α : Type} [DecidableEq α]
    {l₁ l₂ : List α} (h1 : l₁.Nodup) (h2 : ∀ x ∈ l₁, x ∈ l₂) :
    l₁.length ≤ l₂.length := by
  calc l₁.length = l₁.toFinset.card := (List.toFinset_card_of_nodup h1).symm
    _ ≤ l₂.toFinset.card := by
        apply Finset.card_le_card
        intro x hx
        simp only [List.mem_toFinset] at hx ⊢
        exact h2 x hx
    _ ≤ l₂.length := l₂.toFinset_card_le

/-- Palette-counting principle: if a quantizer maps every RGB triple into a
fixed list of representatives, its output has at most that many distinct
triples. -/
theorem distinctRGBCount_mapColors_le (g : Color → Color) (data : List Nat)
    (reps : List Color) (h : ∀ c, g c ∈ reps) :
    distinctRGBCount (mapColors g data) ≤ reps.length := by
  apply length_le_of_nodup_subset (nodup_firstDedup _)
  intro x hx
  have hx2 := mem_of_mem_firstDedup hx
  rw [rgbList_mapColors] at hx2
  obtain ⟨c, _, rfl⟩ := List.mem_map.mp hx2
  exact h c

/-! ### Block averager: `pixelateImageData`

The source walks the image by block origins `(x, y)` in steps of
`pixelSize`, computes the per-channel rounded mean over the clipped block
`blockWidth × blockHeight`, and writes it to every position of the block.
The blocks tile the image, so the loop writes each output pixel exactly
once from the unique block containing it; the embedding below reads off
that per-pixel value (block origin `x / S * S`, `y / S * S`).  Faithful for
`pixelSize ≥ 1` (for `pixelSize ≤ 0` the source loop never terminates). -/

/-- Pixel `p` of `bytesToPixels data` (reads of the input array `data`). -/
def pixelAt (ps : List Pix) (p : Nat) : Pix := ps.getD p (0, 0, 0, 0)

/-- Per-channel sum over the clipped block with origin `(xo, yo)` and size
`bw × bh`, mirroring the accumulation loop of `pixelateImageData`. -/
def blockSum (ps : List Pix) (width : Nat) (f : Pix → Nat)
    (xo yo bw bh : Nat) : Nat :=
  ((List.range bh).map fun dy =>
    ((List.range bw).map fun dx =>
      f (pixelAt ps ((yo + dy) * width + (xo + dx)))).sum).sum

/-- The averaged pixel written to position `p` by the block loop. -/
def blockAveragedPixel (ps : List Pix) (width height pixelSize p : Nat) :
    Pix :=
  let x := p % width
  let y := p / width
  let xo := x / pixelSize * pixelSize
  let yo := y / pixelSize * pixelSize
  let bw := min pixelSize (width - xo)
  let bh := min pixelSize (height - yo)
  let cnt := bw * bh
  (jsRound (blockSum ps width (fun q => q.1) xo yo bw bh) cnt,
   jsRound (blockSum ps width (fun q => q.2.1) xo yo bw bh) cnt,
   jsRound (blockSum ps width (fun q => q.2.2.1) xo yo bw bh) cnt,
   jsRound (blockSum ps width (fun q => q.2.2.2) xo yo bw bh) cnt)

/-- `pixelateImageData(data, width, height, options)`: block averaging with
block side `options.pixelSize` (the only field the source reads). -/
def pixelateImageData (data : List Nat) (width height pixelSize : Nat) :
    List Nat :=
  let ps := bytesToPixels data
  pixelsToBytes ((List.range (width * height)).map fun p =>
    blockAveragedPixel ps width height pixelSize p)

/-! ### Simple (range) quantization: `reduceColorsSimple` -/

/-- `step = Math.floor(256 / Math.sqrt(colorCount))` (see header note). -/
def simpleStep (colorCount : Nat) : Nat := Nat.sqrt (65536 / colorCount)

/-- One channel of the floor-to-step rounding `floor(v / step) * step`. -/
def quantChannel (s v : Nat) : Nat := v / s * s

/-- `reduceColorsSimple(data, colorCount)`. -/
def reduceColorsSimple (data : List Nat) (colorCount : Nat) : List Nat :=
  mapColors (fun c =>
    (quantChannel (simpleStep colorCount) c.1,
     quantChannel (simpleStep colorCount) c.2.1,
     quantChannel (simpleStep colorCount) c.2.2)) data

/-! ### Octree-approximation quantization: `reduceColorsOctree` -/

/-- `bitsPerChannel = Math.floor(Math.log2(colorCount) / 3)`. -/
def octreeBits (colorCount : Nat) : Nat := Nat.log2 colorCount / 3

/-- `step = Math.floor(256 / (1 << bitsPerChannel))`. -/
def octreeStep (colorCount : Nat) : Nat := 256 / 2 ^ octreeBits colorCount

/-- `reduceColorsOctree(data, colorCount)`. -/
def reduceColorsOctree (data : List Nat) (colorCount : Nat) : List Nat :=
  mapColors (fun c =>
    (quantChannel (octreeStep colorCount) c.1,
     quantChannel (octreeStep colorCount) c.2.1,
     quantChannel (octreeStep colorCount) c.2.2)) data

/-! ### Nearest representative by Euclidean distance

Both clustering quantizers pick, for a color, the first representative
attaining the minimal Euclidean distance (`minDist` starts at `Infinity`,
updates on strict `<`).  Distances are compared on the squared integer
values (see header note). -/

/-- Squared Euclidean distance between two RGB triples. -/
def dist2 (c d : Color) : Int :=
  ((c.1 : Int) - d.1) ^ 2 + ((c.2.1 : Int) - d.2.1) ^ 2 +
    ((c.2.2 : Int) - (d.2.2 : Int)) ^ 2

/-- `d < minDist` where `minDist : Option Int`, `none` being `Infinity`. -/
def ltInf (d : Int) : Option Int → Bool
  | none => true
  | some m => decide (d < m)

/-- One step of the `for (let i = 0; ...)` minimum-distance scan. -/
def nearestScanStep (c : Color) (cs : List Color)
    (acc : Option Int × Nat) (i : Nat) : Option Int × Nat :=
  let d := dist2 c (cs.getD i (0, 0, 0))
  if ltInf d acc.1 then (some d, i) else acc

/-- Index of the first representative at minimal distance from `c`
(`closestCentroid` after the scan; 0 if the list is empty). -/
def nearestIndex (cs : List Color) (c : Color) : Nat :=
  ((List.range cs.length).foldl (nearestScanStep c cs) (none, 0)).2

/-- The first representative at minimal distance from `c` (the `for...of`
variant of the scan used by the final mapping passes; it starts from
`representatives[0]` and updates on strict `<`, which picks the same
element as `nearestIndex`). -/
def nearestColor (cs : List Color) (c : Color) : Color :=
  cs.getD (nearestIndex cs c) (0, 0, 0)

theorem nearestScan_lt {c : Color} {cs : List Color} :
    ∀ (l : List Nat) (acc : Option Int × Nat) (n : Nat),
      (∀ i ∈ l, i < n) → acc.1.isSome → acc.2 < n →
      ((l.foldl (nearestScanStep c cs) acc).1.isSome ∧
        (l.foldl (nearestScanStep c cs) acc).2 < n) := by
  intro l
  induction l with
  | nil => intro acc n _ h1 h2; exact ⟨h1, h2⟩
  | cons i l ih =>
      intro acc n hl h1 h2
      simp only [List.foldl_cons]
      apply ih
      · intro j hj; exact hl j (List.mem_cons_of_mem _ hj)
      · simp only [nearestScanStep]
        split
        · rfl
        · exact h1
      · simp only [nearestScanStep]
        split
        · exact hl i (List.mem_cons_self _ _)
        · exact h2

theorem nearestIndex_lt (cs : List Color) (c : Color) (h : cs ≠ []) :
    nearestIndex cs c < cs.length := by
  have hlen : 0 < cs.length := List.length_pos.mpr h
  have hrange : List.range cs.length = 0 :: (List.range (cs.length - 1)).map
      (· + 1) := by
    have := List.range_succ_eq_map (cs.length - 1)
    rw [← this]
    congr 1
    omega
  unfold nearestIndex
  rw [hrange]
  simp only [List.foldl_cons]
  have hstep : nearestScanStep c cs (none, 0) 0 =
      (some (dist2 c (cs.getD 0 (0, 0, 0))), 0) := by
    simp [nearestScanStep, ltInf]
  rw [hstep]
  exact (nearestScan_lt ((List.range (cs.length - 1)).map (· + 1))
    (some (dist2 c (cs.getD 0 (0, 0, 0))), 0) cs.length
    (by intro i hi; simp only [List.mem_map, List.mem_range] at hi
        obtain ⟨j, hj, rfl⟩ := hi; omega)
    (by simp) hlen).2

theorem nearestColor_mem (cs : List Color) (c : Color) (h : cs ≠ []) :
    nearestColor cs c ∈ cs := by
  have hlt := nearestIndex_lt cs c h
  rw [nearestColor, List.getD_eq_getElem cs _ hlt]
  exact List.getElem_mem hlt

theorem nearestColor_singleton (r : Color) (c : Color) :
    nearestColor [r] c = r := by
  simp [nearestColor, nearestIndex, List.range, List.range.loop,
    nearestScanStep, ltInf]

/-! ### K-means quantization: `reduceColorsKMeans` -/

/-- The distinct colors of the buffer in first-encounter order (the keys of
the frequency `Map` the source builds; the frequencies themselves are
accumulated but never read afterwards). -/
def kmeansColorArray (data : List Nat) : List Color :=
  firstDedup (rgbList data)

/-- Centroid seeding: `for (i = 0; i < colorCount && i < colorArray.length;
i++) centroids.push([...colorArray[i % colorArray.length]])`.  The loop
runs `min colorCount colorArray.length` times. -/
def kmeansInitCentroids (data : List Nat) (colorCount : Nat) : List Color :=
  let ca := kmeansColorArray data
  (List.range (min colorCount ca.length)).map fun i =>
    ca.getD (i % ca.length) (0, 0, 0)

/-- The cluster of index `i` in one iteration: the distinct colors whose
nearest centroid (strict-< scan, ties to the first index) is `i`, in
`colorArray` order. -/
def kmeansCluster (ca : List Color) (cents : List Color) (i : Nat) :
    List Color :=
  ca.filter fun c => nearestIndex cents c == i

/-- One refinement iteration: assign every distinct color to its nearest
centroid, then recompute each centroid as the rounded unweighted mean of
its cluster; a centroid with an empty cluster keeps its value. -/
def kmeansUpdate (ca : List Color) (cents : List Color) : List Color :=
  (List.range cents.length).map fun i =>
    let cl := kmeansCluster ca cents i
    if cl.length = 0 then cents.getD i (0, 0, 0)
    else (jsRound (cl.map fun c => c.1).sum cl.length,
          jsRound (cl.map fun c => c.2.1).sum cl.length,
          jsRound (cl.map fun c => c.2.2).sum cl.length)

/-- The centroids after the fixed 10 refinement iterations. -/
def kmeansFinalCentroids (data : List Nat) (colorCount : Nat) :
    List Color :=
  (kmeansUpdate (kmeansColorArray data))^[10]
    (kmeansInitCentroids data colorCount)

/-- `reduceColorsKMeans(data, colorCount)`.  When `colorCount = 0` and the
buffer is non-empty the source throws (`clusters[0]` is `undefined` in the
first iteration) and produces no buffer; this is the `none` case. -/
def reduceColorsKMeans (data : List Nat) (colorCount : Nat) :
    Option (List Nat) :=
  if colorCount = 0 ∧ kmeansColorArray data ≠ [] then none
  else some (mapColors
    (fun c => nearestColor (kmeansFinalCentroids data colorCount) c) data)

/-! ### Median-cut quantization: `reduceColorsMedianCut` -/

/-- A bucket entry: a distinct color together with its frequency. -/
abbrev CCount : Type := Color × Nat

/-- The initial color list with frequencies, in first-encounter order (the
values of the source's `colorMap`). -/
def mcColors (data : List Nat) : List CCount :=
  (firstDedup (rgbList data)).map fun c => (c, (rgbList data).count c)

/-- `color[channel]` for channel indices 0, 1, 2. -/
def channelOf (c : Color) : Nat → Nat
  | 0 => c.1
  | 1 => c.2.1
  | _ => c.2.2

/-- `Math.max(...values)` for a (non-empty) list of channel values. -/
def listMax (l : List Nat) : Nat := l.foldl max 0

/-- `Math.min(...values)` for a (non-empty) list of channel values. -/
def listMin : List Nat → Nat
  | [] => 0
  | v :: r => r.foldl min v

/-- The spread `max − min` of one channel over a bucket. -/
def bucketRange (b : List CCount) (ch : Nat) : Nat :=
  listMax (b.map fun p => channelOf p.1 ch) -
    listMin (b.map fun p => channelOf p.1 ch)

/-- Selection scan: find `(maxRange, bucketIndex, splitChannel)`, skipping
buckets with at most one member, updating on strictly larger spread, the
split channel being the first channel attaining the bucket's largest
spread (`ranges.indexOf(maxChannelRange)`). -/
def mcSelect (buckets : List (List CCount)) : Nat × Nat × Nat :=
  (List.range buckets.length).foldl (fun acc i =>
    let bucket := buckets.getD i []
    if bucket.length ≤ 1 then acc
    else
      let ranges := [0, 1, 2].map fun ch => bucketRange bucket ch
      let m := listMax ranges
      if acc.1 < m then (m, i, ranges.findIdx fun v => v == m) else acc)
    (0, 0, 0)

/-- Stable insertion of an entry into a list sorted by channel `ch`
(strictly smaller keys stay in front, equal keys keep original order). -/
def insertByChannel (ch : Nat) (p : CCount) : List CCount → List CCount
  | [] => [p]
  | q :: r =>
      if channelOf q.1 ch ≤ channelOf p.1 ch then
        q :: insertByChannel ch p r
      else p :: q :: r

/-- Stable sort of a bucket by one channel's value, embedding the JS
`bucket.sort((a, b) => a.color[splitChannel] - b.color[splitChannel])`
(a stable sort per the ES spec; see header note). -/
def sortByChannel (ch : Nat) : List CCount → List CCount
  | [] => []
  | p :: r => insertByChannel ch p (sortByChannel ch r)

/-- One iteration of the splitting loop: pick the bucket and channel by
`mcSelect`, sort that bucket by the channel, cut at `floor(length / 2)`,
replace the bucket by the lower half and push the upper half. -/
def mcSplitStep (buckets : List (List CCount)) : List (List CCount) :=
  let sel := mcSelect buckets
  let bucket := sortByChannel sel.2.2 (buckets.getD sel.2.1 [])
  let median := bucket.length / 2
  buckets.set sel.2.1 (bucket.take median) ++ [bucket.drop median]

/-- The `while (buckets.length < colorCount && buckets.some(b => b.length >
1))` loop.  Each pass adds exactly one bucket, so from the initial single
bucket the loop body runs fewer than `colorCount` times; running the
guarded body `fuel` times with `fuel = colorCount` therefore reaches the
loop's exit state (the guarded body is the identity once the guard
fails, and the guard never becomes true again). -/
def mcLoop : Nat → Nat → List (List CCount) → List (List CCount)
  | 0, _, buckets => buckets
  | fuel + 1, colorCount, buckets =>
      if buckets.length < colorCount ∧ buckets.any fun b => 1 < b.length
      then mcLoop fuel colorCount (mcSplitStep buckets)
      else buckets

/-- The final bucket list of `reduceColorsMedianCut`. -/
def mcBuckets (data : List Nat) (colorCount : Nat) : List (List CCount) :=
  mcLoop colorCount colorCount [mcColors data]

/-- A bucket's representative color: `[0,0,0]` for an empty bucket, else
the rounded frequency-weighted mean of its members' channels. -/
def mcRepresentative (bucket : List CCount) : Color :=
  if bucket.length = 0 then (0, 0, 0)
  else
    let total := (bucket.map fun p => p.2).sum
    (jsRound (bucket.map fun p => p.1.1 * p.2).sum total,
     jsRound (bucket.map fun p => p.1.2.1 * p.2).sum total,
     jsRound (bucket.map fun p => p.1.2.2 * p.2).sum total)

/-- The representative colors of the final buckets. -/
def mcReps (data : List Nat) (colorCount : Nat) : List Color :=
  (mcBuckets data colorCount).map mcRepresentative

/-- `reduceColorsMedianCut(data, colorCount)`. -/
def reduceColorsMedianCut (data : List Nat) (colorCount : Nat) :
    List Nat :=
  mapColors (fun c => nearestColor (mcReps data colorCount) c) data

/-! ### Dispatcher: `reduceColors` -/

/-- The algorithm tag.  The TS union has three tags; `unrecognized` stands
for any other runtime value, which the `default` branch of the source's
`switch` sends to simple quantization. -/
inductive Algorithm : Type
  | kmeans : Algorithm
  | medianCut : Algorithm
  | octree : Algorithm
  | unrecognized : Algorithm

/-- `reduceColors(data, colorCount, algorithm)`; `Option` because the
k-means branch can throw (see `reduceColorsKMeans`). -/
def reduceColors (data : List Nat) (colorCount : Nat) (alg : Algorithm) :
    Option (List Nat) :=
  match alg with
  | Algorithm.kmeans => reduceColorsKMeans data colorCount
  | Algorithm.medianCut => some (reduceColorsMedianCut data colorCount)
  | Algorithm.octree => some (reduceColorsOctree data colorCount)
  | Algorithm.unrecognized => some (reduceColorsSimple data colorCount)

/-! ### Helper lemmas -/

theorem sqrt_eq_exact {m k : Nat} (h1 : k * k ≤ m)
    (h2 : m < (k + 1) * (k + 1)) : Nat.sqrt m = k := by
  have ha : k ≤ Nat.sqrt m := Nat.le_sqrt.mpr h1
  have hb : Nat.sqrt m < k + 1 := Nat.sqrt_lt.mpr h2
  omega

theorem simpleStep_four : simpleStep 4 = 128 := by
  show Nat.sqrt (65536 / 4) = 128
  exact sqrt_eq_exact (by norm_num) (by norm_num)

theorem octreeStep_zero : octreeStep 0 = 256 := by
  have h : Nat.log2 0 = 0 := by rw [Nat.log2_eq_log_two]; simp
  simp [octreeStep, octreeBits, h]

/-- Induction along the 4-byte chunk structure of a well-formed buffer. -/
theorem mod4_induction {P : List Nat → Prop} (h0 : P [])
    (hstep : ∀ r g b a rest, P rest → P (r :: g :: b :: a :: rest)) :
    ∀ data : List Nat, 4 ∣ data.length → P data := by
  intro data hdvd
  obtain ⟨k, hk⟩ := hdvd
  induction k generalizing data with
  | zero =>
      have : data = [] := List.length_eq_zero.mp (by omega)
      subst this; exact h0
  | succ k ih =>
      match data, hk with
      | r :: g :: b :: a :: rest, hk =>
          have hrest : rest.length = 4 * k := by
            simp only [List.length_cons] at hk; omega
          exact hstep r g b a rest (ih rest hrest)

/-- Every byte of a pixel of the chunk view is a byte of the buffer. -/
theorem pix_bytes_mem {data : List Nat} {p : Pix}
    (h : p ∈ bytesToPixels data) :
    p.1 ∈ data ∧ p.2.1 ∈ data ∧ p.2.2.1 ∈ data ∧ p.2.2.2 ∈ data := by
  induction data using bytesToPixels.induct with
  | case1 r g b a rest ih =>
      simp only [bytesToPixels, List.mem_cons] at h
      rcases h with h | h
      · subst h
        refine ⟨by simp, by simp, by simp, by simp⟩
      · obtain ⟨h1, h2, h3, h4⟩ := ih h
        refine ⟨?_, ?_, ?_, ?_⟩ <;> simp only [List.mem_cons] <;> tauto
  | case2 l hne =>
      exfalso
      have hnil : bytesToPixels l = [] := by
        match l with
        | [] => simp [bytesToPixels]
        | [r] => simp [bytesToPixels]
        | [r, g] => simp [bytesToPixels]
        | [r, g, b] => simp [bytesToPixels]
        | r :: g :: b :: a :: rest => exact absurd rfl (hne r g b a rest)
      rw [hnil] at h
      cases h

theorem mem_firstDedup_iff {α : Type} [DecidableEq α] {l : List α}
    {x : α} : x ∈ firstDedup l ↔ x ∈ l := by
  constructor
  · exact mem_of_mem_firstDedup
  · have hmono : ∀ (l acc : List α), acc ⊆
        l.foldl (fun acc c => if c ∈ acc then acc else acc ++ [c]) acc := by
      intro l
      induction l with
      | nil => intro acc; exact fun _ h => h
      | cons a l ih =>
          intro acc
          refine List.Subset.trans ?_ (ih _)
          by_cases ha : a ∈ acc
          · simp [ha]
          · simp only [if_neg ha]
            exact fun y hy => List.mem_append_left _ hy
    have H : ∀ (l acc : List α), x ∈ l →
        x ∈ l.foldl (fun acc c => if c ∈ acc then acc else acc ++ [c])
          acc := by
      intro l
      induction l with
      | nil => intro acc h; cases h
      | cons a l ih =>
          intro acc h
          simp only [List.foldl_cons]
          rcases List.mem_cons.mp h with h | h
          · subst h
            apply hmono
            by_cases ha : x ∈ acc
            · simp [ha]
            · simp [ha]
          · exact ih _ h
    exact H l []

theorem firstDedup_ne_nil {α : Type} [DecidableEq α] {l : List α}
    (h : l ≠ []) : firstDedup l ≠ [] := by
  obtain ⟨a, rest, rfl⟩ := List.exists_cons_of_ne_nil h
  intro hcon
  have : a ∈ firstDedup (a :: rest) := mem_firstDedup_iff.mpr (by simp)
  rw [hcon] at this
  cases this

/-- Palette-counting principle: if a quantizer sends every RGB triple of
the buffer into a fixed list of representatives, its output holds at most
that many distinct triples. -/
theorem distinctRGBCount_le_of_mem (g : Color → Color) (data : List Nat)
    (reps : List Color) (h : ∀ c ∈ rgbList data, g c ∈ reps) :
    distinctRGBCount (mapColors g data) ≤ reps.length := by
  apply length_le_of_nodup_subset (nodup_firstDedup _)
  intro x hx
  have hx2 := mem_of_mem_firstDedup hx
  rw [rgbList_mapColors] at hx2
  obtain ⟨c, hc, rfl⟩ := List.mem_map.mp hx2
  exact h c hc

/-! ### Claim C6: the simple quantizer's step formula and Scenario C -/

/-- C6: simple (range) quantization uses
`step = floor(256 / sqrt(targetColorCount))` and maps every R, G and B
channel value `v` to `floor(v / step) * step`; with `targetColorCount = 4`
the step is `floor(256 / 2) = 128` and the channel value 200 becomes
`floor(200 / 128) * 128 = 128`. -/
theorem simple_step_formula_and_scenario :
    simpleStep 4 = 128 ∧
    reduceColorsSimple [200, 200, 200, 255] 4 = [128, 128, 128, 255] ∧
    ∀ (data : List Nat) (targetColorCount : Nat),
      reduceColorsSimple data targetColorCount =
        mapColors (fun c =>
          (c.1 / simpleStep targetColorCount * simpleStep targetColorCount,
           c.2.1 / simpleStep targetColorCount * simpleStep targetColorCount,
           c.2.2 / simpleStep targetColorCount * simpleStep targetColorCount))
          data := by
  refine ⟨simpleStep_four, ?_, fun data K => rfl⟩
  simp only [reduceColorsSimple, simpleStep_four]
  decide

/-! ### Claim C9: block averaging rounds half up (Scenario B) -/

/-- C9: on the 2×2 buffer with two black and two white pixels (alpha 255)
and `blockSize = 2`, the single block's per-channel mean 510/4 = 127.5
rounds half-up to 128, and that color fills all four output pixels with
alpha 255. -/
theorem block_average_scenario_b :
    pixelateImageData
      [0, 0, 0, 255, 255, 255, 255, 255, 0, 0, 0, 255, 255, 255, 255, 255]
      2 2 2 =
      [128, 128, 128, 255, 128, 128, 128, 255,
       128, 128, 128, 255, 128, 128, 128, 255] := by
  decide

/-! ### Claim C4: block averaging with blockSize = 1 is the identity -/

/-- C4: for every well-formed buffer, block averaging with `blockSize = 1`
returns a byte-identical buffer (each 1×1 block's rounded mean is the
pixel itself). -/
theorem block_average_one_id (data : List Nat) (width height : Nat)
    (h : data.length = width * height * 4) :
    pixelateImageData data width height 1 = data := by
  have hdvd : 4 ∣ data.length := ⟨width * height, by omega⟩
  have hps : (bytesToPixels data).length = width * height := by
    rw [length_bytesToPixels, h]
    omega
  have hmap : (List.range (width * height)).map
      (fun p => blockAveragedPixel (bytesToPixels data) width height 1 p) =
      bytesToPixels data := by
    apply List.ext_getElem
    · simp [hps]
    · intro p h1 h2
      simp only [List.getElem_map, List.getElem_range]
      have hp : p < width * height := by simpa using h1
      have hW : 0 < width := by
        rcases Nat.eq_zero_or_pos width with h0 | h0
        · subst h0; simp at hp
        · exact h0
      have hx : p % width < width := Nat.mod_lt _ hW
      have hy : p / width < height := by
        rw [Nat.div_lt_iff_lt_mul hW, Nat.mul_comm height width]
        exact hp
      have hcoord : p / width * width + p % width = p := by
        rw [Nat.mul_comm]
        exact Nat.div_add_mod p width
      have hr1 : List.range 1 = [0] := rfl
      simp only [blockAveragedPixel, Nat.div_one, Nat.mul_one]
      rw [Nat.min_eq_left (by omega : 1 ≤ width - p % width),
        Nat.min_eq_left (by omega : 1 ≤ height - p / width)]
      simp only [blockSum, hr1, List.map_cons, List.map_nil,
        List.sum_cons, List.sum_nil, Nat.add_zero]
      rw [hcoord]
      have hjs : ∀ v : Nat, jsRound v (1 * 1) = v := by
        intro v
        simp only [jsRound]
        omega
      simp only [hjs]
      rw [pixelAt, List.getD_eq_getElem _ _ (by omega : p <
        (bytesToPixels data).length)]
  show pixelsToBytes ((List.range (width * height)).map
      (fun p => blockAveragedPixel (bytesToPixels data) width height 1 p)) =
    data
  rw [hmap, pixelsToBytes_bytesToPixels data hdvd]

/-- C4 witness at a concrete 2×1 buffer. -/
theorem block_average_one_id_witness :
    pixelateImageData [1, 2, 3, 4, 5, 6, 7, 8] 2 1 1 =
      [1, 2, 3, 4, 5, 6, 7, 8] :=
  block_average_one_id [1, 2, 3, 4, 5, 6, 7, 8] 2 1 (by decide)

/-! ### Claim C2: k-means centroid seeding (corrected: no cycling) -/

/-- C2 counterexample: on a one-pixel buffer (one distinct color) with
`targetColorCount = 2`, seeding creates one centroid, not two — the loop
condition `i < colorCount && i < colorArray.length` stops at the distinct
color count and the index `i % colorArray.length` never wraps. -/
theorem kmeans_seeding_counterexample :
    (kmeansInitCentroids [5, 6, 7, 255] 2).length = 1 ∧
    (kmeansInitCentroids [5, 6, 7, 255] 2).length ≠ 2 := by
  constructor
  · decide
  · decide

/-- C2 amended: the initial centroids are exactly the first
`min targetColorCount distinctColorCount` distinct colors of the buffer in
first-encountered order; no cycling occurs, so fewer than
`targetColorCount` centroids are created whenever the buffer holds fewer
distinct colors. -/
theorem kmeans_seeding_take (data : List Nat) (targetColorCount : Nat) :
    kmeansInitCentroids data targetColorCount =
      (kmeansColorArray data).take targetColorCount ∧
    (kmeansInitCentroids data targetColorCount).length =
      min targetColorCount (distinctRGBCount data) := by
  constructor
  · apply List.ext_getElem
    · simp [kmeansInitCentroids, List.length_take]
    · intro i h1 h2
      simp only [kmeansInitCentroids, List.getElem_map, List.getElem_range]
      have hi : i < min targetColorCount (kmeansColorArray data).length := by
        simpa [kmeansInitCentroids] using h1
      have hilen : i < (kmeansColorArray data).length := by omega
      rw [Nat.mod_eq_of_lt hilen,
        List.getD_eq_getElem _ _ hilen, List.getElem_take _]
  · simp [kmeansInitCentroids, distinctRGBCount, kmeansColorArray]

/-! ### Claim C5: alpha pass-through for all four quantizers -/

/-- C5: every quantization algorithm leaves the alpha channel (every
fourth byte) byte-identical to the input's; for k-means this is stated for
every buffer on which the source produces an output. -/
theorem alpha_passthrough (data : List Nat) (targetColorCount : Nat) :
    alphaChannel (reduceColorsSimple data targetColorCount) =
      alphaChannel data ∧
    alphaChannel (reduceColorsOctree data targetColorCount) =
      alphaChannel data ∧
    alphaChannel (reduceColorsMedianCut data targetColorCount) =
      alphaChannel data ∧
    ∀ out, reduceColorsKMeans data targetColorCount = some out →
      alphaChannel out = alphaChannel data := by
  refine ⟨alphaChannel_mapColors _ _, alphaChannel_mapColors _ _,
    alphaChannel_mapColors _ _, ?_⟩
  intro out hout
  unfold reduceColorsKMeans at hout
  split at hout
  · cases hout
  · cases hout
    exact alphaChannel_mapColors _ _

/-- C5 witness: k-means on a one-color buffer with target 2 produces an
output, and the theorem applies to it. -/
theorem alpha_passthrough_witness :
    reduceColorsKMeans [10, 20, 30, 255] 2 = some [10, 20, 30, 255] ∧
    alphaChannel [10, 20, 30, 255] = alphaChannel [10, 20, 30, 255] :=
  ⟨by decide,
   (alpha_passthrough [10, 20, 30, 255] 2).2.2.2 [10, 20, 30, 255]
     (by decide)⟩

/-! ### Claim C7: median-cut with targetColorCount = 1 (Scenario D) -/

/-- C7: with `targetColorCount = 1` the splitting loop never runs, leaving
the single initial bucket of all distinct colors; its representative is
the rounded frequency-weighted mean of the members, and every output pixel
carries that RGB value with its own alpha. -/
theorem median_cut_target_one (data : List Nat) (_h4 : 4 ∣ data.length)
    (_hne : data ≠ []) :
    mcBuckets data 1 = [mcColors data] ∧
    bytesToPixels (reduceColorsMedianCut data 1) =
      (bytesToPixels data).map fun p =>
        ((mcRepresentative (mcColors data)).1,
         (mcRepresentative (mcColors data)).2.1,
         (mcRepresentative (mcColors data)).2.2, alphaOf p) := by
  have hb : mcBuckets data 1 = [mcColors data] := by
    simp [mcBuckets, mcLoop]
  refine ⟨hb, ?_⟩
  show bytesToPixels (mapColors (fun c => nearestColor (mcReps data 1) c)
    data) = _
  rw [mcReps, hb]
  simp only [List.map_cons, List.map_nil]
  rw [mapColors, bytesToPixels_pixelsToBytes]
  apply List.map_congr_left
  intro p _
  rw [nearestColor_singleton]

/-- C7 witness on a concrete one-pixel buffer. -/
theorem median_cut_target_one_witness :
    bytesToPixels (reduceColorsMedianCut [10, 20, 30, 255] 1) =
      [(10, 20, 30, 255)] := by
  have h := (median_cut_target_one [10, 20, 30, 255] (by decide)
    (by decide)).2
  rw [h]
  decide

/-! ### Claim C3 (corrected): there is no InvalidConfiguration validation -/

/-- C3 counterexample: color quantization with `targetColorCount = 0` does
not fail and does produce an output buffer — median-cut returns the input
unchanged on a one-color buffer, and octree and simple return a buffer
with all RGB set to 0 — contradicting the claimed tagged
`InvalidConfiguration` failure with no output. -/
theorem no_invalid_configuration_counterexample :
    reduceColorsMedianCut [10, 20, 30, 255] 0 = [10, 20, 30, 255] ∧
    reduceColorsOctree [10, 20, 30, 255] 0 = [0, 0, 0, 255] ∧
    reduceColorsSimple [10, 20, 30, 255] 0 = [0, 0, 0, 255] := by
  refine ⟨by decide, ?_, by decide⟩
  simp only [reduceColorsOctree, octreeStep_zero]
  decide

/-- C3 amended: neither operation validates its configuration and no
`InvalidConfiguration` error kind exists.  Quantization with
`targetColorCount = 0` still returns an output buffer of the input's
length for median-cut, simple and octree; only k-means fails, with a
generic runtime error (`clusters[0]` is undefined), not a tagged
configuration error.  (Block averaging with `blockSize ≤ 0` likewise
returns no tagged failure: its loop never terminates.) -/
theorem no_invalid_configuration (data : List Nat)
    (h4 : 4 ∣ data.length) :
    (reduceColorsMedianCut data 0).length = data.length ∧
    (reduceColorsSimple data 0).length = data.length ∧
    (reduceColorsOctree data 0).length = data.length ∧
    (kmeansColorArray data ≠ [] → reduceColorsKMeans data 0 = none) := by
  refine ⟨length_mapColors _ _ h4, length_mapColors _ _ h4,
    length_mapColors _ _ h4, ?_⟩
  intro hca
  simp [reduceColorsKMeans, hca]

/-- C3 amended witness on a concrete one-pixel buffer. -/
theorem no_invalid_configuration_witness :
    (reduceColorsMedianCut [10, 20, 30, 255] 0).length = 4 ∧
    reduceColorsKMeans [10, 20, 30, 255] 0 = none := by
  refine ⟨?_, (no_invalid_configuration [10, 20, 30, 255]
    (by decide)).2.2.2 (by decide)⟩
  have h := (no_invalid_configuration [10, 20, 30, 255] (by decide)).1
  simpa using h

/-! ### Claim C8: octree equals per-channel uniform step quantization -/

/-- The spec's description of the octree approximation, written from the
spec's words for comparison with the source embedding: with
`bitsPerChannel = floor(log2(targetColorCount) / 3)` and
`step = floor(256 / 2^bitsPerChannel)`, every byte that is not an alpha
byte (index ≡ 3 mod 4) is replaced by `floor(v / step) * step`. -/
def specOctreeQuantize (data : List Nat) (targetColorCount : Nat) :
    List Nat :=
  data.mapIdx fun i v =>
    if i % 4 = 3 then v
    else v / (256 / 2 ^ (Nat.log2 targetColorCount / 3)) *
      (256 / 2 ^ (Nat.log2 targetColorCount / 3))

theorem mapColors_cons4 (g0 : Color → Color) (r g b a : Nat)
    (rest : List Nat) :
    mapColors g0 (r :: g :: b :: a :: rest) =
      (g0 (r, g, b)).1 :: (g0 (r, g, b)).2.1 :: (g0 (r, g, b)).2.2 :: a ::
        mapColors g0 rest := by
  simp [mapColors, bytesToPixels, pixelsToBytes, List.flatMap_cons, rgbOf,
    alphaOf]

theorem specOctreeQuantize_cons4 (r g b a : Nat) (rest : List Nat)
    (targetColorCount : Nat) :
    specOctreeQuantize (r :: g :: b :: a :: rest) targetColorCount =
      (r / (256 / 2 ^ (Nat.log2 targetColorCount / 3)) *
        (256 / 2 ^ (Nat.log2 targetColorCount / 3))) ::
      (g / (256 / 2 ^ (Nat.log2 targetColorCount / 3)) *
        (256 / 2 ^ (Nat.log2 targetColorCount / 3))) ::
      (b / (256 / 2 ^ (Nat.log2 targetColorCount / 3)) *
        (256 / 2 ^ (Nat.log2 targetColorCount / 3))) :: a ::
      specOctreeQuantize rest targetColorCount := by
  have hfun : (fun i v => if (i + 1 + 1 + 1 + 1) % 4 = 3 then v
      else v / (256 / 2 ^ (Nat.log2 targetColorCount / 3)) *
        (256 / 2 ^ (Nat.log2 targetColorCount / 3))) =
      (fun i v => if i % 4 = 3 then v
      else v / (256 / 2 ^ (Nat.log2 targetColorCount / 3)) *
        (256 / 2 ^ (Nat.log2 targetColorCount / 3))) := by
    funext i v
    have hm : (i + 1 + 1 + 1 + 1) % 4 = i % 4 := by omega
    rw [hm]
  simp only [specOctreeQuantize, List.mapIdx_cons]
  norm_num
  rw [hfun]

/-- C8: octree quantization is extensionally the per-channel floor-to-step
transformation with `bitsPerChannel = floor(log2(targetColorCount) / 3)`
and `step = floor(256 / 2^bitsPerChannel)` — the same rounding shape as
simple quantization, with this step. -/
theorem octree_is_step_quantization (data : List Nat)
    (targetColorCount : Nat) (h4 : 4 ∣ data.length) :
    reduceColorsOctree data targetColorCount =
      specOctreeQuantize data targetColorCount := by
  refine mod4_induction (P := fun d => reduceColorsOctree d targetColorCount
    = specOctreeQuantize d targetColorCount) ?_ ?_ data h4
  · simp [reduceColorsOctree, mapColors, specOctreeQuantize, bytesToPixels,
      pixelsToBytes]
  · intro r g b a rest ih
    show mapColors _ _ = _
    rw [mapColors_cons4, specOctreeQuantize_cons4]
    have ih2 : mapColors (fun c =>
        (quantChannel (octreeStep targetColorCount) c.1,
         quantChannel (octreeStep targetColorCount) c.2.1,
         quantChannel (octreeStep targetColorCount) c.2.2)) rest =
        specOctreeQuantize rest targetColorCount := ih
    rw [ih2]
    rfl

/-- C8 witness at a concrete buffer and target 8. -/
theorem octree_is_step_quantization_witness :
    reduceColorsOctree [7, 200, 31, 9] 8 =
      specOctreeQuantize [7, 200, 31, 9] 8 :=
  octree_is_step_quantization [7, 200, 31, 9] 8 (by decide)

/-! ### Claim C10: octree with 1 ≤ targetColorCount ≤ 7 blacks out RGB -/

/-- C10: for `1 ≤ targetColorCount ≤ 7`, `bitsPerChannel = 0` and
`step = 256`, so octree maps every R, G, B byte of a byte-valued buffer to
0 while alpha is unchanged. -/
theorem octree_small_target_black (data : List Nat)
    (targetColorCount : Nat) (h1 : 1 ≤ targetColorCount)
    (h7 : targetColorCount ≤ 7) (hv : ∀ v ∈ data, v < 256) :
    octreeBits targetColorCount = 0 ∧ octreeStep targetColorCount = 256 ∧
    bytesToPixels (reduceColorsOctree data targetColorCount) =
      (bytesToPixels data).map fun p => (0, 0, 0, alphaOf p) := by
  have hlt : targetColorCount < 2 ^ 3 := lt_of_le_of_lt h7 (by norm_num)
  have hlog : Nat.log2 targetColorCount < 3 :=
    (Nat.log2_lt (by omega)).mpr hlt
  have hbits : octreeBits targetColorCount = 0 := Nat.div_eq_of_lt hlog
  have hstep : octreeStep targetColorCount = 256 := by
    simp [octreeStep, hbits]
  refine ⟨hbits, hstep, ?_⟩
  show bytesToPixels (mapColors _ data) = _
  rw [mapColors, bytesToPixels_pixelsToBytes]
  apply List.map_congr_left
  intro p hp
  obtain ⟨hm1, hm2, hm3, _⟩ := pix_bytes_mem hp
  simp only [quantChannel, hstep, rgbOf]
  rw [Nat.div_eq_of_lt (hv _ hm1), Nat.div_eq_of_lt (hv _ hm2),
    Nat.div_eq_of_lt (hv _ hm3)]

/-- C10 witness on a concrete one-pixel buffer with target 1. -/
theorem octree_small_target_black_witness :
    bytesToPixels (reduceColorsOctree [7, 200, 31, 9] 1) = [(0, 0, 0, 9)] := by
  have h := (octree_small_target_black [7, 200, 31, 9] 1 (by decide)
    (by decide) (by decide)).2.2
  rw [h]
  decide

/-! ### Claim C1 (corrected): the palette bound

Simple quantization does not obey the ≤ `targetColorCount` bound (with
`targetColorCount = 4` its step 128 leaves up to 8 distinct colors fixed);
the bound does hold for k-means, median-cut and octree. -/

theorem kmeansUpdate_length (ca cs : List Color) :
    (kmeansUpdate ca cs).length = cs.length := by
  simp [kmeansUpdate]

theorem kmeansFinalCentroids_length (data : List Nat)
    (targetColorCount : Nat) :
    (kmeansFinalCentroids data targetColorCount).length =
      min targetColorCount (kmeansColorArray data).length := by
  unfold kmeansFinalCentroids
  have H : ∀ n (cs : List Color),
      ((kmeansUpdate (kmeansColorArray data))^[n] cs).length = cs.length := by
    intro n
    induction n with
    | zero => intro cs; rfl
    | succ n ih =>
        intro cs
        rw [Function.iterate_succ_apply, ih, kmeansUpdate_length]
  rw [H]
  simp [kmeansInitCentroids]

theorem mcSplitStep_length (bs : List (List CCount)) :
    (mcSplitStep bs).length = bs.length + 1 := by
  simp [mcSplitStep]

theorem mcLoop_length_le (m : Nat) :
    ∀ (fuel targetColorCount : Nat) (bs : List (List CCount)),
      targetColorCount ≤ m → bs.length ≤ m →
      (mcLoop fuel targetColorCount bs).length ≤ m := by
  intro fuel
  induction fuel with
  | zero => intro K bs hK hbs; exact hbs
  | succ fuel ih =>
      intro K bs hK hbs
      simp only [mcLoop]
      split
      · rename_i hguard
        apply ih K _ hK
        rw [mcSplitStep_length]
        omega
      · exact hbs

theorem mcLoop_ne_nil :
    ∀ (fuel targetColorCount : Nat) (bs : List (List CCount)),
      bs ≠ [] → mcLoop fuel targetColorCount bs ≠ [] := by
  intro fuel
  induction fuel with
  | zero => intro K bs h; exact h
  | succ fuel ih =>
      intro K bs h
      simp only [mcLoop]
      split
      · apply ih
        simp [mcSplitStep]
      · exact h

/-- The list of all colors the octree quantizer can output on byte-valued
channels: the multiples of its step below 256, per channel. -/
def octreePalette (targetColorCount : Nat) : List Color :=
  (List.range (2 ^ octreeBits targetColorCount)).flatMap fun i =>
    (List.range (2 ^ octreeBits targetColorCount)).flatMap fun j =>
      (List.range (2 ^ octreeBits targetColorCount)).map fun k =>
        (i * octreeStep targetColorCount, j * octreeStep targetColorCount,
         k * octreeStep targetColorCount)

theorem octreePalette_length (targetColorCount : Nat) :
    (octreePalette targetColorCount).length =
      (2 ^ octreeBits targetColorCount) ^ 3 := by
  simp [octreePalette, List.length_flatMap, Function.comp_def]
  ring

theorem mem_octreePalette {targetColorCount : Nat} {c : Color}
    (hb : octreeBits targetColorCount ≤ 8) (h1 : c.1 < 256)
    (h2 : c.2.1 < 256) (h3 : c.2.2 < 256) :
    (quantChannel (octreeStep targetColorCount) c.1,
     quantChannel (octreeStep targetColorCount) c.2.1,
     quantChannel (octreeStep targetColorCount) c.2.2) ∈
      octreePalette targetColorCount := by
  have hdvd : 2 ^ octreeBits targetColorCount ∣ 256 := by
    have h256 : (256 : Nat) = 2 ^ 8 := by norm_num
    rw [h256]
    exact pow_dvd_pow 2 hb
  have hs : 2 ^ octreeBits targetColorCount * octreeStep targetColorCount
      = 256 := Nat.mul_div_cancel' hdvd
  have hspos : 0 < octreeStep targetColorCount := by
    rcases Nat.eq_zero_or_pos (octreeStep targetColorCount) with h0 | h0
    · rw [h0, Nat.mul_zero] at hs
      omega
    · exact h0
  have hq : ∀ v : Nat, v < 256 →
      v / octreeStep targetColorCount < 2 ^ octreeBits targetColorCount := by
    intro v hvlt
    rw [Nat.div_lt_iff_lt_mul hspos, hs]
    exact hvlt
  simp only [octreePalette, List.mem_flatMap, List.mem_map, List.mem_range]
  refine ⟨c.1 / octreeStep targetColorCount, hq _ h1,
    c.2.1 / octreeStep targetColorCount, hq _ h2,
    c.2.2 / octreeStep targetColorCount, hq _ h3, rfl⟩

/-- C1 counterexample: a buffer with the 5 distinct colors (0,0,0),
(128,0,0), (0,128,0), (128,128,0), (0,0,128) and `targetColorCount = 4 <
5`: simple quantization's step is 128, every one of these colors is fixed
by the floor-to-step rounding, and the output keeps 5 > 4 distinct RGB
triples. -/
theorem palette_bound_counterexample :
    distinctRGBCount [0, 0, 0, 255, 128, 0, 0, 255, 0, 128, 0, 255,
      128, 128, 0, 255, 0, 0, 128, 255] = 5 ∧
    ¬ distinctRGBCount (reduceColorsSimple [0, 0, 0, 255, 128, 0, 0, 255,
      0, 128, 0, 255, 128, 128, 0, 255, 0, 0, 128, 255] 4) ≤ 4 := by
  constructor
  · decide
  · simp only [reduceColorsSimple, simpleStep_four]
    decide

/-- C1 amended: for k-means (whenever it produces an output), median-cut
and octree, quantization of a byte-valued well-formed buffer with
`targetColorCount ≥ 1` outputs at most `targetColorCount` distinct RGB
triples; simple quantization does not obey this bound (see the
counterexample). -/
theorem palette_bound (data : List Nat) (targetColorCount : Nat)
    (_h4 : 4 ∣ data.length) (hK : 1 ≤ targetColorCount)
    (hv : ∀ v ∈ data, v < 256) :
    (∀ out, reduceColorsKMeans data targetColorCount = some out →
      distinctRGBCount out ≤ targetColorCount) ∧
    distinctRGBCount (reduceColorsMedianCut data targetColorCount) ≤
      targetColorCount ∧
    distinctRGBCount (reduceColorsOctree data targetColorCount) ≤
      targetColorCount := by
  refine ⟨?_, ?_, ?_⟩
  · -- k-means
    intro out hout
    unfold reduceColorsKMeans at hout
    split at hout
    · cases hout
    · cases hout
      by_cases hca : kmeansColorArray data = []
      · have hrgb : rgbList data = [] := by
          by_contra hne2
          exact (firstDedup_ne_nil hne2) hca
        simp [distinctRGBCount, rgbList_mapColors, hrgb, firstDedup]
      · have hclen := kmeansFinalCentroids_length data targetColorCount
        have hcne : kmeansFinalCentroids data targetColorCount ≠ [] := by
          have hcal : 0 < (kmeansColorArray data).length :=
            List.length_pos.mpr hca
          have : 0 < (kmeansFinalCentroids data targetColorCount).length := by
            rw [hclen]
            omega
          exact List.ne_nil_of_length_pos this
        calc distinctRGBCount (mapColors
            (fun c => nearestColor (kmeansFinalCentroids data
              targetColorCount) c) data)
            ≤ (kmeansFinalCentroids data targetColorCount).length :=
              distinctRGBCount_le_of_mem _ _ _
                (fun c _ => nearestColor_mem _ c hcne)
          _ ≤ targetColorCount := by rw [hclen]; omega
  · -- median-cut
    have hlen : (mcBuckets data targetColorCount).length ≤
        targetColorCount :=
      mcLoop_length_le targetColorCount targetColorCount targetColorCount
        [mcColors data] le_rfl (by simpa using hK)
    have hrne : mcReps data targetColorCount ≠ [] := by
      have hb := mcLoop_ne_nil targetColorCount targetColorCount
        [mcColors data] (by simp)
      simp only [mcReps, ne_eq, List.map_eq_nil_iff]
      exact hb
    calc distinctRGBCount (reduceColorsMedianCut data targetColorCount)
        ≤ (mcReps data targetColorCount).length :=
          distinctRGBCount_le_of_mem _ _ _
            (fun c _ => nearestColor_mem _ c hrne)
      _ = (mcBuckets data targetColorCount).length := by simp [mcReps]
      _ ≤ targetColorCount := hlen
  · -- octree
    by_cases hb : octreeBits targetColorCount ≤ 8
    · have hmem : ∀ c ∈ rgbList data,
          (quantChannel (octreeStep targetColorCount) c.1,
           quantChannel (octreeStep targetColorCount) c.2.1,
           quantChannel (octreeStep targetColorCount) c.2.2) ∈
            octreePalette targetColorCount := by
        intro c hc
        obtain ⟨p, hp, rfl⟩ := List.mem_map.mp hc
        obtain ⟨hm1, hm2, hm3, _⟩ := pix_bytes_mem hp
        exact mem_octreePalette hb (hv _ hm1) (hv _ hm2) (hv _ hm3)
      calc distinctRGBCount (reduceColorsOctree data targetColorCount)
          ≤ (octreePalette targetColorCount).length :=
            distinctRGBCount_le_of_mem _ _ _ hmem
        _ = (2 ^ octreeBits targetColorCount) ^ 3 :=
            octreePalette_length targetColorCount
        _ = 2 ^ (octreeBits targetColorCount * 3) := (pow_mul 2 _ 3).symm
        _ ≤ 2 ^ Nat.log2 targetColorCount :=
            Nat.pow_le_pow_right (by norm_num)
              (by simpa [octreeBits] using
                Nat.div_mul_le_self (Nat.log2 targetColorCount) 3)
        _ ≤ targetColorCount := Nat.log2_self_le (by omega)
    · have hstep0 : octreeStep targetColorCount = 0 := by
        have h9 : 256 < 2 ^ octreeBits targetColorCount := by
          calc (256 : Nat) < 2 ^ 9 := by norm_num
            _ ≤ 2 ^ octreeBits targetColorCount :=
                Nat.pow_le_pow_right (by norm_num) (by omega)
        exact Nat.div_eq_of_lt h9
      calc distinctRGBCount (reduceColorsOctree data targetColorCount)
          ≤ ([(0, 0, 0)] : List Color).length :=
            distinctRGBCount_le_of_mem _ _ _
              (fun c _ => by simp [quantChannel, hstep0])
        _ ≤ targetColorCount := hK

/-- C1 amended witness on a concrete one-pixel buffer with target 1. -/
theorem palette_bound_witness :
    distinctRGBCount (reduceColorsMedianCut [0, 0, 0, 255] 1) ≤ 1 :=
  (palette_bound [0, 0, 0, 255] 1 (by decide) (by decide) (by decide)).2.1

end PixelGen
